import Mathlib

/-!
Shallow embedding of `src/main.py` (a Perforce change-report assistant) and
proofs about its core algorithms: the directory-folding compressor
(`extract_unique_directories`), the token-budgeted history truncation
(`truncate_history`), message assembly and persistence, and the
watermark-driven polling window (`get_previous_datetime`,
`get_recent_changelists`).

External collaborators (the Perforce backend, the OpenAI backend, the Discord
webhook, tiktoken's encoder, and the filesystem) are modelled as explicit
parameters: the encoder as a function `String → Nat` giving the token count of
a string, the filesystem as a function from absolute path strings to optional
file contents, and backend responses as plain data.
-/

namespace P4GPT

/-! ## Paths: a model of `pathlib.PurePosixPath` values

A parsed POSIX path is an anchor (`Root`) plus a list of components.
`pathlib` distinguishes three anchors: relative paths, absolute paths rooted
at `/`, and paths rooted at the special double slash `//` (Perforce depot
paths such as `//depot/dir/file` parse this way).  `.parent` drops the last
component and is a fixpoint once the components run out. -/

inductive Root
  | rel
  | abs
  | dabs
deriving DecidableEq

structure PyPath where
  root : Root
  parts : List String
deriving DecidableEq

/-- `pathlib`'s `.parent`: drop the last component; the empty path (`.`, `/`
or `//`) is its own parent. -/
def PyPath.parent (p : PyPath) : PyPath :=
  match p.parts with
  | [] => p
  | _ :: _ => ⟨p.root, p.parts.dropLast⟩

/-- The characters an anchor contributes to `str(path)`. -/
def Root.chars : Root → List Char
  | .rel => []
  | .abs => ['/']
  | .dabs => ['/', '/']

/-- `"/".join(parts)` at the character level. -/
def joinSlash : List (List Char) → List Char
  | [] => []
  | [c] => c
  | c :: c' :: cs => c ++ '/' :: joinSlash (c' :: cs)

/-- `str(path)` for a `PurePosixPath`: the anchor followed by the
slash-joined components; an empty relative path prints as `"."`. -/
def PyPath.strData (p : PyPath) : List Char :=
  match p.parts with
  | [] =>
    match p.root with
    | .rel => ['.']
    | .abs => ['/']
    | .dabs => ['/', '/']
  | _ :: _ => p.root.chars ++ joinSlash (p.parts.map String.data)

/-- `pat` is a leading segment of `s` (character-list version). -/
def startsWith : List Char → List Char → Bool
  | [], _ => true
  | _ :: _, [] => false
  | a :: pat, b :: s => a == b && startsWith pat s

/-- Python's substring test `pat in s` on character lists. -/
def hasSub (pat : List Char) : List Char → Bool
  | [] => startsWith pat []
  | b :: s => startsWith pat (b :: s) || hasSub pat s

/-- First marker token tested at `main.py:255`. -/
def extActorsTok : List Char := "__ExternalActors__".data

/-- Second marker token tested at `main.py:255` (note: no trailing
underscores in the source). -/
def extObjectsTok : List Char := "__ExternalObjects".data

/-- The per-path directory computation of `extract_unique_directories`
(`main.py:253-259`): take the parent directory, and if the *string form* of
that parent contains either external-asset marker token as a substring,
ascend two additional levels. -/
def initial_dir (path : PyPath) : PyPath :=
  let parent_dir := path.parent
  if hasSub extActorsTok parent_dir.strData || hasSub extObjectsTok parent_dir.strData then
    parent_dir.parent.parent
  else
    parent_dir

/-- Depth of a path: number of components. -/
def PyPath.depth (p : PyPath) : Nat := p.parts.length

/-- The three component-less paths (`.`, `/`, `//`), the only fixpoints of
`PyPath.parent`. -/
def rootPaths : Finset PyPath := {⟨.rel, []⟩, ⟨.abs, []⟩, ⟨.dabs, []⟩}

theorem mem_rootPaths_of_depth_zero (p : PyPath) (h : p.depth = 0) : p ∈ rootPaths := by
  rcases p with ⟨r, parts⟩
  have hp : parts = [] := List.length_eq_zero.mp h
  subst hp
  cases r <;> simp [rootPaths]

theorem sup_depth_pos_of_card_gt (dirs : Finset PyPath) (h : 12 < dirs.card) :
    1 ≤ dirs.sup PyPath.depth := by
  by_contra hlt
  push_neg at hlt
  have hz : dirs.sup PyPath.depth = 0 := Nat.lt_one_iff.mp hlt
  have hsub : dirs ⊆ rootPaths := by
    intro p hp
    have hle : p.depth ≤ dirs.sup PyPath.depth := Finset.le_sup hp
    exact mem_rootPaths_of_depth_zero p (Nat.le_zero.mp (hz ▸ hle))
  have hcard : dirs.card ≤ rootPaths.card := Finset.card_le_card hsub
  have hroot : rootPaths.card ≤ 3 := by decide
  omega

theorem PyPath.parent_depth_le (p : PyPath) : p.parent.depth ≤ p.depth - 1 := by
  rcases p with ⟨r, parts⟩
  cases parts with
  | nil => simp [parent, depth]
  | cons a as => simp [parent, depth]

theorem sup_depth_image_parent_le (dirs : Finset PyPath) :
    (dirs.image PyPath.parent).sup PyPath.depth ≤ dirs.sup PyPath.depth - 1 := by
  rw [Finset.sup_image]
  apply Finset.sup_le
  intro p hp
  have hle : p.depth ≤ dirs.sup PyPath.depth := Finset.le_sup hp
  exact le_trans (PyPath.parent_depth_le p) (Nat.sub_le_sub_right hle 1)

/-- The `while len(unique_dirs_list) > 12` loop of `main.py:263-267`: replace
every directory in the set by its parent until at most 12 remain.  The loop
terminates because each pass lowers the maximal depth by one, and once every
surviving path is component-less there are at most three of them. -/
def foldLoop (dirs : Finset PyPath) : Finset PyPath :=
  if h : 12 < dirs.card then
    foldLoop (dirs.image PyPath.parent)
  else
    dirs
termination_by dirs.sup PyPath.depth
decreasing_by
  have h1 := sup_depth_pos_of_card_gt dirs h
  have h2 := sup_depth_image_parent_le dirs
  omega

/-- `extract_unique_directories` (`main.py:249-269`): collect the (possibly
marker-adjusted) parent directory of every input file path into a set, then
run the folding loop.  The Python function returns the set as a list in
arbitrary order; the spec compares the result as a set, so the embedding
returns the `Finset`. -/
def extract_unique_directories (file_paths : List PyPath) : Finset PyPath :=
  foldLoop (file_paths.foldl (fun s path => insert (initial_dir path) s) ∅)

theorem foldLoop_card_le_aux :
    ∀ (n : Nat) (dirs : Finset PyPath), dirs.sup PyPath.depth ≤ n →
      (foldLoop dirs).card ≤ 12 := by
  intro n
  induction n with
  | zero =>
    intro dirs hd
    by_cases h : 12 < dirs.card
    · exact absurd (sup_depth_pos_of_card_gt dirs h) (by omega)
    · unfold foldLoop
      rw [dif_neg h]
      omega
  | succ n ih =>
    intro dirs hd
    by_cases h : 12 < dirs.card
    · unfold foldLoop
      rw [dif_pos h]
      apply ih
      have h1 := sup_depth_image_parent_le dirs
      omega
    · unfold foldLoop
      rw [dif_neg h]
      omega

theorem foldLoop_card_le (dirs : Finset PyPath) : (foldLoop dirs).card ≤ 12 :=
  foldLoop_card_le_aux (dirs.sup PyPath.depth) dirs le_rfl

theorem foldLoop_invariant_aux (Q : PyPath → Prop) (hQ : ∀ p, Q p → Q p.parent) :
    ∀ (n : Nat) (dirs : Finset PyPath), dirs.sup PyPath.depth ≤ n →
      (∀ p ∈ dirs, Q p) → ∀ p ∈ foldLoop dirs, Q p := by
  intro n
  induction n with
  | zero =>
    intro dirs hd hall
    by_cases h : 12 < dirs.card
    · exact absurd (sup_depth_pos_of_card_gt dirs h) (by omega)
    · unfold foldLoop
      rw [dif_neg h]
      exact hall
  | succ n ih =>
    intro dirs hd hall
    by_cases h : 12 < dirs.card
    · unfold foldLoop
      rw [dif_pos h]
      apply ih
      · have h1 := sup_depth_image_parent_le dirs
        omega
      · intro p hp
        rcases Finset.mem_image.mp hp with ⟨q, hq, rfl⟩
        exact hQ q (hall q hq)
    · unfold foldLoop
      rw [dif_neg h]
      exact hall

theorem foldLoop_invariant (Q : PyPath → Prop) (hQ : ∀ p, Q p → Q p.parent)
    (dirs : Finset PyPath) (hall : ∀ p ∈ dirs, Q p) :
    ∀ p ∈ foldLoop dirs, Q p :=
  foldLoop_invariant_aux Q hQ (dirs.sup PyPath.depth) dirs le_rfl hall

/-- `k`-fold application of `PyPath.parent`. -/
def parentIter : Nat → PyPath → PyPath
  | 0, p => p
  | n + 1, p => (parentIter n p).parent

/-- `d` is an ancestor directory of `p`: a positive number of `.parent`
steps leads from `p` to `d`. -/
def ancestor_of (d p : PyPath) : Prop := ∃ k, 0 < k ∧ parentIter k p = d

theorem ancestor_of_parent (d p : PyPath) (h : ancestor_of d p) :
    ancestor_of d.parent p := by
  rcases h with ⟨k, hk, he⟩
  exact ⟨k + 1, by omega, by rw [parentIter, he]⟩

theorem initial_dir_eq_parentIter (p : PyPath) :
    initial_dir p = parentIter 1 p ∨ initial_dir p = parentIter 3 p := by
  unfold initial_dir
  by_cases h : (hasSub extActorsTok p.parent.strData
      || hasSub extObjectsTok p.parent.strData) = true
  · exact Or.inr (by rw [if_pos h]; rfl)
  · exact Or.inl (by rw [if_neg h]; rfl)

theorem mem_foldl_insert (l : List PyPath) :
    ∀ (s : Finset PyPath) (d : PyPath),
      d ∈ l.foldl (fun s path => insert (initial_dir path) s) s ↔
        d ∈ s ∨ ∃ p ∈ l, initial_dir p = d := by
  induction l with
  | nil => simp
  | cons a l ih =>
    intro s d
    rw [List.foldl_cons, ih]
    constructor
    · rintro (h | ⟨p, hp, hd⟩)
      · rcases Finset.mem_insert.mp h with h1 | h2
        · exact Or.inr ⟨a, List.mem_cons_self a l, h1.symm⟩
        · exact Or.inl h2
      · exact Or.inr ⟨p, List.mem_cons_of_mem a hp, hd⟩
    · rintro (h | ⟨p, hp, hd⟩)
      · exact Or.inl (Finset.mem_insert_of_mem h)
      · rcases List.mem_cons.mp hp with rfl | hp'
        · exact Or.inl (Finset.mem_insert.mpr (Or.inl hd.symm))
        · exact Or.inr ⟨p, hp', hd⟩

/-- `pathlib`'s `.name`: the final component, `""` for a component-less path. -/
def PyPath.name (p : PyPath) : String := p.parts.getLastD ""

/-- C2: for every list of changed file paths, `extract_unique_directories`
terminates (it is a total function of its input) and its result, viewed as a
set, has at most 12 elements. -/
theorem extract_unique_directories_card_le (file_paths : List PyPath) :
    (extract_unique_directories file_paths).card ≤ 12 :=
  foldLoop_card_le _

/-- C9: every directory returned by `extract_unique_directories` is an
ancestor (a positive number of `.parent` steps) of at least one input file
path, including paths routed through the external-asset special case, which
contribute the third-level ancestor. -/
theorem extract_unique_directories_ancestor (file_paths : List PyPath) (d : PyPath)
    (hd : d ∈ extract_unique_directories file_paths) :
    ∃ p ∈ file_paths, ancestor_of d p := by
  refine foldLoop_invariant (fun q => ∃ p ∈ file_paths, ancestor_of q p) ?_ _ ?_ d hd
  · rintro q ⟨p, hp, ha⟩
    exact ⟨p, hp, ancestor_of_parent _ _ ha⟩
  · intro q hq
    rcases (mem_foldl_insert file_paths ∅ q).mp hq with h | ⟨p, hp, hd'⟩
    · exact absurd h (Finset.not_mem_empty q)
    · rcases initial_dir_eq_parentIter p with he | he
      · exact ⟨p, hp, 1, by omega, by rw [← hd', he]⟩
      · exact ⟨p, hp, 3, by omega, by rw [← hd', he]⟩

theorem extract_unique_directories_ancestor_witness :
    (⟨.rel, ["a", "b"]⟩ : PyPath) ∈
        extract_unique_directories [⟨.rel, ["a", "b", "f.txt"]⟩] ∧
    ∃ p ∈ [(⟨.rel, ["a", "b", "f.txt"]⟩ : PyPath)],
        ancestor_of ⟨.rel, ["a", "b"]⟩ p := by
  have hmem : (⟨.rel, ["a", "b"]⟩ : PyPath) ∈
      extract_unique_directories [⟨.rel, ["a", "b", "f.txt"]⟩] := by
    unfold extract_unique_directories foldLoop
    rw [dif_neg (by decide)]
    decide
  exact ⟨hmem, extract_unique_directories_ancestor _ _ hmem⟩

/-- C4 counterexample: for the input file path
`a/__ExternalActors__/b/f.txt` the immediate parent directory is
`a/__ExternalActors__/b`, whose own name `b` matches neither marker token,
yet the code still ascends two additional levels (to `a`), because the
source tests the marker as a substring of the whole parent path string
(`main.py:255`), not of the parent's name. -/
theorem initial_dir_triggers_on_ancestor_marker :
    initial_dir ⟨.rel, ["a", "__ExternalActors__", "b", "f.txt"]⟩ =
        parentIter 3 ⟨.rel, ["a", "__ExternalActors__", "b", "f.txt"]⟩ ∧
    parentIter 3 ⟨.rel, ["a", "__ExternalActors__", "b", "f.txt"]⟩ ≠
        (⟨.rel, ["a", "__ExternalActors__", "b", "f.txt"]⟩ : PyPath).parent ∧
    (⟨.rel, ["a", "__ExternalActors__", "b", "f.txt"]⟩ : PyPath).parent.name = "b" ∧
    hasSub extActorsTok
        (⟨.rel, ["a", "__ExternalActors__", "b", "f.txt"]⟩ : PyPath).parent.name.data
      = false ∧
    hasSub extObjectsTok
        (⟨.rel, ["a", "__ExternalActors__", "b", "f.txt"]⟩ : PyPath).parent.name.data
      = false := by
  decide

/-! ### Substring reasoning for the marker test

The marker test at `main.py:255` checks the token against the *string form*
of the parent path.  Because neither token contains a slash, containment in
the slash-joined string is equivalent to containment in one of the path's
components; the lemmas below establish that equivalence. -/

theorem startsWith_nil_false (pat : List Char) (h : pat ≠ []) :
    startsWith pat [] = false := by
  cases pat with
  | nil => exact absurd rfl h
  | cons a p => rfl

theorem hasSub_nil_false (pat : List Char) (h : pat ≠ []) :
    hasSub pat [] = false := by
  simp [hasSub, startsWith_nil_false pat h]

theorem startsWith_append_extend (pat : List Char) :
    ∀ xs zs, startsWith pat xs = true → startsWith pat (xs ++ zs) = true := by
  induction pat with
  | nil => intro xs zs _; rfl
  | cons a p ih =>
    intro xs zs h
    cases xs with
    | nil => exact absurd h (by simp [startsWith_nil_false])
    | cons b xs' =>
      simp only [startsWith, Bool.and_eq_true] at h
      simp only [List.cons_append, startsWith, Bool.and_eq_true]
      exact ⟨h.1, ih xs' zs h.2⟩

theorem startsWith_through_append (pat : List Char) :
    ∀ xs c zs, c ∉ pat → startsWith pat (xs ++ c :: zs) = true →
      startsWith pat xs = true := by
  induction pat with
  | nil => intro xs c zs _ _; rfl
  | cons a p ih =>
    intro xs c zs hc h
    cases xs with
    | nil =>
      simp only [List.nil_append, startsWith, Bool.and_eq_true, beq_iff_eq] at h
      exact absurd (h.1 ▸ List.mem_cons_self a p) hc
    | cons b xs' =>
      simp only [List.cons_append, startsWith, Bool.and_eq_true] at h
      simp only [startsWith, Bool.and_eq_true]
      exact ⟨h.1, ih xs' c zs (fun hm => hc (List.mem_cons_of_mem a hm)) h.2⟩

theorem hasSub_of_startsWith (pat s : List Char) (h : startsWith pat s = true) :
    hasSub pat s = true := by
  cases s with
  | nil => simpa [hasSub] using h
  | cons b s' => simp [hasSub, h]

theorem hasSub_append_right (pat : List Char) :
    ∀ xs zs, hasSub pat zs = true → hasSub pat (xs ++ zs) = true := by
  intro xs
  induction xs with
  | nil => intro zs h; simpa using h
  | cons x xs' ih =>
    intro zs h
    simp only [List.cons_append, hasSub, Bool.or_eq_true]
    exact Or.inr (ih zs h)

theorem hasSub_append_left (pat : List Char) :
    ∀ xs zs, hasSub pat xs = true → hasSub pat (xs ++ zs) = true := by
  intro xs
  induction xs with
  | nil =>
    intro zs h
    simp only [hasSub] at h
    cases pat with
    | nil => cases zs with
      | nil => simpa [hasSub] using h
      | cons b s => simp [hasSub, startsWith]
    | cons a p => simp [startsWith] at h
  | cons x xs' ih =>
    intro zs h
    simp only [hasSub, Bool.or_eq_true] at h
    simp only [List.cons_append, hasSub, Bool.or_eq_true]
    rcases h with h | h
    · exact Or.inl (by simpa using startsWith_append_extend pat (x :: xs') zs h)
    · exact Or.inr (ih zs h)

theorem hasSub_split (pat : List Char) (hne : pat ≠ []) (c : Char) (hc : c ∉ pat) :
    ∀ xs zs, hasSub pat (xs ++ c :: zs) = true ↔
      (hasSub pat xs = true ∨ hasSub pat zs = true) := by
  intro xs zs
  constructor
  · intro h
    induction xs with
    | nil =>
      simp only [List.nil_append, hasSub, Bool.or_eq_true] at h
      rcases h with h | h
      · cases pat with
        | nil => exact absurd rfl hne
        | cons a p =>
          simp only [startsWith, Bool.and_eq_true, beq_iff_eq] at h
          exact absurd (h.1 ▸ List.mem_cons_self a p) hc
      · exact Or.inr h
    | cons x xs' ih =>
      simp only [List.cons_append, hasSub, Bool.or_eq_true] at h
      rcases h with h | h
      · have h' : startsWith pat (x :: xs') = true :=
          startsWith_through_append pat (x :: xs') c zs hc (by simpa using h)
        exact Or.inl (hasSub_of_startsWith _ _ h')
      · rcases ih h with h1 | h1
        · refine Or.inl ?_
          simp only [hasSub, Bool.or_eq_true]
          exact Or.inr h1
        · exact Or.inr h1
  · rintro (h | h)
    · exact hasSub_append_left pat xs (c :: zs) h
    · have : hasSub pat ((xs ++ [c]) ++ zs) = true := hasSub_append_right pat _ zs h
      simpa using this


theorem hasSub_joinSlash (pat : List Char) (hne : pat ≠ []) (hc : '/' ∉ pat) :
    ∀ L : List (List Char),
      hasSub pat (joinSlash L) = true ↔ ∃ c ∈ L, hasSub pat c = true := by
  intro L
  induction L with
  | nil => simp [joinSlash, hasSub_nil_false pat hne]
  | cons c cs ih =>
    cases cs with
    | nil => simp [joinSlash]
    | cons c' cs' =>
      rw [joinSlash, hasSub_split pat hne '/' hc]
      rw [ih]
      simp only [List.mem_cons]
      constructor
      · rintro (h | ⟨x, hx, h⟩)
        · exact ⟨c, Or.inl rfl, h⟩
        · exact ⟨x, Or.inr hx, h⟩
      · rintro ⟨x, rfl | hx, h⟩
        · exact Or.inl h
        · exact Or.inr ⟨x, hx, h⟩

theorem startsWith_slash_false (pat : List Char) (hne : pat ≠ []) (hc : '/' ∉ pat)
    (s : List Char) : startsWith pat ('/' :: s) = false := by
  cases pat with
  | nil => exact absurd rfl hne
  | cons a p =>
    have ha : a ≠ '/' := fun h => hc (h ▸ List.mem_cons_self a p)
    simp [startsWith, ha]

theorem hasSub_slash_cons (pat : List Char) (hne : pat ≠ []) (hc : '/' ∉ pat)
    (s : List Char) : hasSub pat ('/' :: s) = hasSub pat s := by
  simp [hasSub, startsWith_slash_false pat hne hc]

theorem hasSub_single_false (pat : List Char) (h2 : 2 ≤ pat.length) (a : Char) :
    hasSub pat [a] = false := by
  cases pat with
  | nil => simp at h2
  | cons x p =>
    cases p with
    | nil => simp at h2
    | cons y p' => simp [hasSub, startsWith, startsWith_nil_false]

theorem hasSub_strData_iff (pat : List Char) (h2 : 2 ≤ pat.length) (hc : '/' ∉ pat)
    (p : PyPath) :
    hasSub pat p.strData = true ↔ ∃ c ∈ p.parts, hasSub pat c.data = true := by
  have hne : pat ≠ [] := by
    intro h
    rw [h] at h2
    simp at h2
  rcases p with ⟨r, parts⟩
  cases parts with
  | nil =>
    cases r <;>
      simp [PyPath.strData, hasSub_single_false pat h2,
        hasSub_slash_cons pat hne hc, hasSub_nil_false pat hne]
  | cons a as =>
    have hjoin := hasSub_joinSlash pat hne hc ((a :: as).map String.data)
    have hmap : (∃ c ∈ (a :: as).map String.data, hasSub pat c = true) ↔
        ∃ c ∈ a :: as, hasSub pat c.data = true := by
      constructor
      · rintro ⟨c, hcm, h⟩
        rcases List.mem_map.mp hcm with ⟨x, hx, rfl⟩
        exact ⟨x, hx, h⟩
      · rintro ⟨x, hx, h⟩
        exact ⟨x.data, List.mem_map.mpr ⟨x, hx, rfl⟩, h⟩
    cases r with
    | rel =>
      simpa [PyPath.strData, Root.chars] using hjoin.trans hmap
    | abs =>
      rw [PyPath.strData]
      simp only [Root.chars, List.cons_append, List.nil_append]
      rw [hasSub_slash_cons pat hne hc]
      exact hjoin.trans hmap
    | dabs =>
      rw [PyPath.strData]
      simp only [Root.chars, List.cons_append, List.nil_append]
      rw [hasSub_slash_cons pat hne hc, hasSub_slash_cons pat hne hc]
      exact hjoin.trans hmap

/-- C4 (amended): the extra two-level ascent in `extract_unique_directories`
is applied exactly when *some component* of the immediate parent path — its
own name or any ancestor directory's name — contains one of the two marker
tokens `__ExternalActors__` and `__ExternalObjects` (the second without
trailing underscores) as a substring; for all other paths exactly the
immediate parent is taken. -/
theorem initial_dir_marker_characterisation (path : PyPath) :
    initial_dir path =
      if path.parent.parts.any
          (fun c => hasSub extActorsTok c.data || hasSub extObjectsTok c.data) then
        path.parent.parent.parent
      else
        path.parent := by
  have hcond : (hasSub extActorsTok path.parent.strData
      || hasSub extObjectsTok path.parent.strData) =
      path.parent.parts.any
        (fun c => hasSub extActorsTok c.data || hasSub extObjectsTok c.data) := by
    have hA := hasSub_strData_iff extActorsTok (by decide) (by decide) path.parent
    have hO := hasSub_strData_iff extObjectsTok (by decide) (by decide) path.parent
    rw [Bool.eq_iff_iff]
    simp only [Bool.or_eq_true, List.any_eq_true, hA, hO]
    constructor
    · rintro (⟨c, hcm, h⟩ | ⟨c, hcm, h⟩)
      · exact ⟨c, hcm, Or.inl h⟩
      · exact ⟨c, hcm, Or.inr h⟩
    · rintro ⟨c, hcm, h | h⟩
      · exact Or.inl ⟨c, hcm, h⟩
      · exact Or.inr ⟨c, hcm, h⟩
  simp only [initial_dir]
  rw [hcond]
/-! ## Conversation history buffer (`main.py:60-151`)

The OpenAI-bound message dictionaries built by this program always have
exactly the two keys `role` and `content`; tiktoken's encoder is abstracted
as a function `enc : String → Nat` giving the encoded length of a string. -/

structure Message where
  role : String
  content : String
deriving DecidableEq

/-- `MAX_TOKENS` (`main.py:16`). -/
def MAX_TOKENS : Nat := 100000

/-- The fixed instruction block `SYSTEM_MESSAGE` (`main.py:22-34`). -/
def SYSTEM_MESSAGE : String := "
You are an assistant to an indie game development team located around the world. You are responsible for making sure everyone is aware of what others are doing by reporting on recent submissions to the Helix Core server.

When you are given a JSON payload of recent changelists, please write a report summarizing what people have been working on. The JSON payload will contain a list of changelists, each of which will have a changelist number, username, time (in UTC), description, and a list of edited folders. Keep the tone of the reports casual and friendly, but also professional. Do not give specific details about changelist numbers or times unless they are relevant to the report. If relevant, you could mention how close together some changelists are, but do not give specific times or numbers unless asked.

If you receive a question or instruction instead of a JSON payload, please respond to the best of your ability. For example, if you are asked to give more details on a certain changelist or user, you should respond with a report on that changelist. Or if you are asked to give a summary of what a certain user has been working on, you should respond with a report on that user.

If you have a hard time understanding what people were working on based on their changelist descriptions and edited_folder lists, you can add some friendly suggestions on how they might improve their changelist descriptions to be more descriptive for their teammates. DO NOT do this every time, only when you feel it is necessary to understand what they were working on. Giving specific examples or suggestions is a good way to help them improve their descriptions. Again, DO NOT give suggestions every time, only when the changelist descriptions are difficult to understand.

When writing the message, please only use people's first names unless it is a shared login, in which case you can reference the username itself since we don't know who actually made the changes. You can also use emoji to make the message more fun and engaging.

These messages will be posted to Discord so you do not sign your message with your name.
"

/-- `num_tokens_from_messages` (`main.py:96-116`): 3 tokens of overhead per
message plus the encoded length of every field value (the messages built
here carry no `name` key), and 3 more tokens priming the reply. -/
def num_tokens_from_messages (enc : String → Nat) (messages : List Message) : Nat :=
  (messages.map fun m => 3 + enc m.role + enc m.content).sum + 3

/-- The `while` loop of `truncate_history`, structured on the tail: the
entry at index 0 is pinned while `messages.pop(1)` drops the head of the
tail.  `none` models the uncaught `IndexError` that `pop(1)` raises when
fewer than two entries remain while the budget is still exceeded. -/
def truncAux (enc : String → Nat) (m0 : Message) : List Message → Option (List Message)
  | [] =>
    if MAX_TOKENS < num_tokens_from_messages enc [m0] then none
    else some [m0]
  | m1 :: rest =>
    if MAX_TOKENS < num_tokens_from_messages enc (m0 :: m1 :: rest) then
      truncAux enc m0 rest
    else some (m0 :: m1 :: rest)

/-- `truncate_history` (`main.py:89-93`): evict the entry at index 1 while
the estimated token total exceeds `MAX_TOKENS`. -/
def truncate_history (enc : String → Nat) (messages : List Message) :
    Option (List Message) :=
  match messages with
  | [] =>
    if MAX_TOKENS < num_tokens_from_messages enc [] then none
    else some []
  | m0 :: rest => truncAux enc m0 rest

/-- `assemble_messages` (`main.py:79-86`): unconditionally prepend the
system block, append the history and the new user payload, then truncate. -/
def assemble_messages (enc : String → Nat) (history : List Message)
    (new_message : String) : Option (List Message) :=
  truncate_history enc
    (⟨"system", SYSTEM_MESSAGE⟩ :: (history ++ [⟨"user", new_message⟩]))

/-- `save_history` (`main.py:72-76`): the contents written to the history
file — system entries filtered out, new assistant reply appended. -/
def save_history (messages : List Message) (new_response : String) : List Message :=
  (messages.filter fun m => m.role != "system") ++ [⟨"assistant", new_response⟩]

/-- The persistence behaviour of `ask_query` (`main.py:119-151`):
`fileContents` is the parsed history file (`none` when the file does not
exist) and the result is what the function writes back after a successful
completion `reply` — the truncated messages plus the assistant reply, with
no stripping of system entries.  `none` models the `IndexError` from
truncation. -/
def ask_query_saved (enc : String → Nat) (fileContents : Option (List Message))
    (query reply : String) : Option (List Message) :=
  let previous_messages :=
    match fileContents with
    | some msgs => msgs
    | none => [⟨"system", SYSTEM_MESSAGE⟩]
  match truncate_history enc (previous_messages ++ [⟨"user", query⟩]) with
  | none => none
  | some messages => some (messages ++ [⟨"assistant", reply⟩])

theorem num_tokens_head_le (enc : String → Nat) (m0 : Message) (l : List Message) :
    num_tokens_from_messages enc [m0] ≤ num_tokens_from_messages enc (m0 :: l) := by
  simp only [num_tokens_from_messages, List.map_cons, List.map_nil, List.sum_cons,
    List.sum_nil]
  omega

theorem truncAux_spec (enc : String → Nat) (m0 : Message) :
    ∀ rest : List Message,
      (∀ r, truncAux enc m0 rest = some r →
        num_tokens_from_messages enc r ≤ MAX_TOKENS) ∧
      (truncAux enc m0 rest = none ↔
        MAX_TOKENS < num_tokens_from_messages enc [m0]) := by
  intro rest
  induction rest with
  | nil =>
    by_cases h : MAX_TOKENS < num_tokens_from_messages enc [m0]
    · refine ⟨?_, by simp [truncAux, h]⟩
      intro r hr
      simp [truncAux, h] at hr
    · refine ⟨?_, by simp [truncAux, h]⟩
      intro r hr
      simp only [truncAux, if_neg h, Option.some.injEq] at hr
      subst hr
      omega
  | cons m1 rest ih =>
    by_cases h : MAX_TOKENS < num_tokens_from_messages enc (m0 :: m1 :: rest)
    · constructor
      · intro r hr
        apply ih.1 r
        simpa [truncAux, h] using hr
      · have hstep : truncAux enc m0 (m1 :: rest) = truncAux enc m0 rest := by
          simp [truncAux, h]
        rw [hstep]
        exact ih.2
    · constructor
      · intro r hr
        simp only [truncAux, if_neg h, Option.some.injEq] at hr
        subst hr
        omega
      · simp only [truncAux, if_neg h]
        constructor
        · intro hc
          exact Option.noConfusion hc
        · intro hc
          exact ((h (Nat.lt_of_lt_of_le hc (num_tokens_head_le enc m0 (m1 :: rest)))).elim)

/-- C1 (amended): `truncate_history` always terminates, and whenever it
returns a list, the list's total estimated token cost is at most
`MAX_TOKENS`; but when the list has been reduced to the single entry at
index 0 whose cost alone still exceeds the ceiling, it does not return that
entry — `messages.pop(1)` on the one-element list raises an `IndexError`
(modelled by `none`).  The call fails in exactly that situation. -/
theorem truncate_history_budget (enc : String → Nat) (m0 : Message)
    (rest : List Message) :
    (∀ r, truncate_history enc (m0 :: rest) = some r →
        num_tokens_from_messages enc r ≤ MAX_TOKENS) ∧
    (truncate_history enc (m0 :: rest) = none ↔
        MAX_TOKENS < num_tokens_from_messages enc [m0]) :=
  truncAux_spec enc m0 rest

theorem truncate_history_budget_witness :
    num_tokens_from_messages (fun _ => 0) [⟨"system", "s"⟩, ⟨"user", "u"⟩] ≤
      MAX_TOKENS :=
  (truncate_history_budget (fun _ => 0) ⟨"system", "s"⟩ [⟨"user", "u"⟩]).1
    [⟨"system", "s"⟩, ⟨"user", "u"⟩] (by decide)

/-- C1 counterexample: with an encoder assigning 100001 tokens per
character, a message list already reduced to the single system entry whose
cost alone exceeds the ceiling makes `truncate_history` raise (the
`IndexError` from `messages.pop(1)` on a one-element list, modelled by
`none`) instead of returning the one-entry list. -/
theorem truncate_history_single_entry_fails :
    truncate_history (fun s => 100001 * s.length) [⟨"system", "x"⟩] = none := by
  decide

theorem truncate_history_le_noop (enc : String → Nat) (messages : List Message)
    (h : num_tokens_from_messages enc messages ≤ MAX_TOKENS) :
    truncate_history enc messages = some messages := by
  match messages with
  | [] => simp [truncate_history, Nat.not_lt.mpr h]
  | [m0] => simp [truncate_history, truncAux, Nat.not_lt.mpr h]
  | m0 :: m1 :: r => simp [truncate_history, truncAux, Nat.not_lt.mpr h]

/-- C6 (amended): `assemble_messages` prepends the fixed system block
unconditionally — there is no presence check.  When the history contains no
system entry (which `save_history` guarantees for persisted history) and the
assembled list fits the token budget, the assembled message list is exactly
one system entry at index 0, followed by the history, then the new payload
as a user entry.  A history that already carries a system entry at index 0
instead yields two system entries (see the counterexample). -/
theorem assemble_messages_structure (enc : String → Nat) (history : List Message)
    (msg : String)
    (h1 : ∀ m ∈ history, m.role ≠ "system")
    (h2 : num_tokens_from_messages enc
        (⟨"system", SYSTEM_MESSAGE⟩ :: (history ++ [⟨"user", msg⟩])) ≤ MAX_TOKENS) :
    assemble_messages enc history msg =
      some (⟨"system", SYSTEM_MESSAGE⟩ :: (history ++ [⟨"user", msg⟩])) ∧
    ((⟨"system", SYSTEM_MESSAGE⟩ :: (history ++ [⟨"user", msg⟩])).filter
        (fun m => m.role == "system")).length = 1 := by
  constructor
  · exact truncate_history_le_noop enc _ h2
  · have hh : history.filter (fun m => m.role == "system") = [] := by
      rw [List.filter_eq_nil_iff]
      intro m hm
      simpa using h1 m hm
    simp [List.filter_append, hh]

theorem assemble_messages_structure_witness :
    assemble_messages (fun _ => 0) [] "q" =
      some (⟨"system", SYSTEM_MESSAGE⟩ :: ([] ++ [⟨"user", "q"⟩])) ∧
    (((⟨"system", SYSTEM_MESSAGE⟩ : Message) :: (([] : List Message) ++ [⟨"user", "q"⟩])).filter
        (fun m => m.role == "system")).length = 1 :=
  assemble_messages_structure (fun _ => 0) [] "q" (by simp) (by decide)

/-- C6 counterexample: a history whose entry 0 is already a system entry
still gets the fixed system block prepended, so the assembled list contains
two system entries — there is no presence check. -/
theorem assemble_messages_double_system :
    (assemble_messages (fun _ => 0) [⟨"system", "x"⟩] "q").map
        (fun l => (l.filter fun m => m.role == "system").length) = some 2 := by
  decide

/-- C7 (amended): after a successful summarization call the scheduled-report
path (`save_history`) persists the message sequence with every system entry
removed and the new assistant reply appended; the free-form query path
(`ask_query`) persists the truncated messages with the assistant reply
appended but does **not** strip system entries (see the counterexample). -/
theorem persisted_history_shape :
    (∀ (messages : List Message) (reply : String),
      (∀ m ∈ save_history messages reply, m.role ≠ "system") ∧
      (save_history messages reply).getLast? = some ⟨"assistant", reply⟩) ∧
    (∀ (enc : String → Nat) (file : Option (List Message)) (q reply : String)
        (out : List Message), ask_query_saved enc file q reply = some out →
      out.getLast? = some ⟨"assistant", reply⟩) := by
  constructor
  · intro messages reply
    constructor
    · intro m hm
      rcases List.mem_append.mp hm with h | h
      · have hp := (List.mem_filter.mp h).2
        simpa using hp
      · have hm' := List.mem_singleton.mp h
        subst hm'
        simp
    · exact List.getLast?_concat _
  · intro enc file q reply out h
    simp only [ask_query_saved] at h
    split at h
    · exact Option.noConfusion h
    · simp only [Option.some.injEq] at h
      subst h
      exact List.getLast?_concat _

theorem persisted_history_shape_witness :
    (∀ m ∈ save_history ([⟨"system", "s"⟩, ⟨"user", "u"⟩] : List Message) "r",
        m.role ≠ "system") ∧
    (save_history ([⟨"system", "s"⟩, ⟨"user", "u"⟩] : List Message) "r").getLast? =
        some ⟨"assistant", "r"⟩ ∧
    ([⟨"user", "u"⟩, ⟨"user", "q"⟩, (⟨"assistant", "r"⟩ : Message)]).getLast? =
        some ⟨"assistant", "r"⟩ :=
  ⟨(persisted_history_shape.1 ([⟨"system", "s"⟩, ⟨"user", "u"⟩] : List Message) "r").1,
    (persisted_history_shape.1 ([⟨"system", "s"⟩, ⟨"user", "u"⟩] : List Message) "r").2,
    persisted_history_shape.2 (fun _ => 0) (some [⟨"user", "u"⟩]) "q" "r"
      [⟨"user", "u"⟩, ⟨"user", "q"⟩, ⟨"assistant", "r"⟩] (by decide)⟩

/-- C7 counterexample: in free-form query mode with no history file, the
sequence written back keeps the synthesized system entry — `ask_query`
persists `messages + [assistant]` without stripping. -/
theorem ask_query_saved_keeps_system :
    (ask_query_saved (fun _ => 0) none "q" "r").map
        (fun l => l.any fun m => m.role == "system") = some true := by
  decide

/-! ## History file paths (`main.py:14-18`, `60-69`, `119-124`) -/

/-- `HISTORY_FILE` (`main.py:18`): the absolute path
`ROOT_DIR / "data/history.json"`. -/
def HISTORY_FILE (root_dir : String) : String := root_dir ++ "/data/history.json"

/-- Opening a relative path resolves it against the process working
directory. -/
def resolve_relative (cwd rel : String) : String := cwd ++ "/" ++ rel

/-- `get_history` (`main.py:60-69`) run against a filesystem `fs` mapping
absolute paths to contents: existence is checked on the absolute
`HISTORY_FILE`, but the file is then opened via the relative path
`"data/history.json"`.  `none` models the uncaught `FileNotFoundError`; when
the absolute path does not exist the file is created and `[]` returned. -/
def get_history (fs : String → Option (List Message)) (root_dir cwd : String) :
    Option (List Message) :=
  if (fs (HISTORY_FILE root_dir)).isSome then
    fs (resolve_relative cwd "data/history.json")
  else
    some []

/-- The history read at the top of `ask_query` (`main.py:120-124`): the same
absolute-check/relative-open mismatch, but a missing file yields the
synthesized system entry instead of an empty history. -/
def ask_query_read (fs : String → Option (List Message)) (root_dir cwd : String) :
    Option (List Message) :=
  if (fs (HISTORY_FILE root_dir)).isSome then
    fs (resolve_relative cwd "data/history.json")
  else
    some [⟨"system", SYSTEM_MESSAGE⟩]

/-- C10: when the persisted history file exists at its configured absolute
location but nowhere else, and the working directory is not the project
root, both history reads raise `FileNotFoundError` (modelled by `none`)
instead of returning the stored history: the existence check uses the
absolute path while `open` uses the relative one. -/
theorem history_read_path_mismatch (fs : String → Option (List Message))
    (root_dir cwd : String) (stored : List Message)
    (h1 : fs (HISTORY_FILE root_dir) = some stored)
    (h2 : ∀ p, p ≠ HISTORY_FILE root_dir → fs p = none)
    (h3 : cwd ≠ root_dir) :
    get_history fs root_dir cwd = none ∧ ask_query_read fs root_dir cwd = none := by
  have hne : resolve_relative cwd "data/history.json" ≠ HISTORY_FILE root_dir := by
    intro he
    apply h3
    have he' : cwd ++ ("/" ++ "data/history.json") =
        root_dir ++ ("/" ++ "data/history.json") := by
      rw [← String.append_assoc]
      exact he
    have hd := congrArg String.data he'
    simp only [String.data_append] at hd
    exact String.ext (List.append_cancel_right hd)
  constructor
  · simp [get_history, h1, h2 _ hne]
  · simp [ask_query_read, h1, h2 _ hne]

theorem history_read_path_mismatch_witness :
    get_history
        (fun p => if p = HISTORY_FILE "/proj" then some [] else none) "/proj" "/tmp"
      = none ∧
    ask_query_read
        (fun p => if p = HISTORY_FILE "/proj" then some [] else none) "/proj" "/tmp"
      = none :=
  history_read_path_mismatch
    (fun p => if p = HISTORY_FILE "/proj" then some [] else none) "/proj" "/tmp" []
    (by simp) (fun p hp => if_neg hp) (by decide)


/-! ## Watermark and change listing (`main.py:179-246`) -/

/-- One record of `p4.run_users()` (`main.py:39`). -/
structure P4User where
  User : String
  FullName : String

/-- One change detail record as returned by `p4.run_describe`
(`main.py:191`): numeric change id, submitting user, submit time as epoch
seconds (`int(cl["time"])`), description, and the `depotFile` path list
(empty when the key is absent, e.g. for a pending or empty change). -/
structure P4Change where
  change : Nat
  user : String
  time : Nat
  desc : String
  depotFile : List PyPath

/-- One entry of the JSON payload built at `main.py:207-223`.  `time` stays
in epoch seconds; the code renders it as `YYYY/MM/DD:HH:MM:SS`, a lossless
encoding at second precision. -/
structure ReportEntry where
  changelist_number : Nat
  username : String
  user_full_name : String
  time : Nat
  description : String
  edited_folders : Finset PyPath

/-- `get_previous_datetime` (`main.py:234-246`).  Instants are epoch
seconds, so parsing/formatting of `%Y/%m/%d:%H:%M:%S` strings is the
identity on this representation.  `previous_datetime` is the explicit start
argument, `latest_file` the persisted watermark file contents, `now` the
current clock, `timedelta(days=1)` is 86400 seconds.  Note the final
`+= timedelta(seconds=1)` sits outside the branches and applies to all of
them. -/
def get_previous_datetime (previous_datetime : Option Nat) (latest_file : Option Nat)
    (now : Nat) : Nat :=
  (match previous_datetime with
   | none =>
     match latest_file with
     | some w => w
     | none => now - 86400
   | some t => t) + 1

/-- `get_current_datetime` (`main.py:226-231`). -/
def get_current_datetime (current_datetime : Option Nat) (now : Nat) : Nat :=
  match current_datetime with
  | none => now
  | some t => t

/-- `get_recent_changelists` (`main.py:179-223`) after the window
computation, as a function of the backend responses: `changelists` is what
`p4.run_changes("-r", ...)` returned for the window (oldest first) and — by
the describe contract — also the detail list `p4.run_describe` yields for
those ids, in order; `describe_ok` is false when `run_describe` raises
`P4Exception` (the `except` branch returns `[]` before the watermark
write).  `latest_file` is the current watermark file contents; the first
component of the result is the watermark file contents after the run: the
time of the *last* detail record, written before the folder filtering, or
the old contents when nothing was retrieved. -/
def get_recent_changelists (p4_users : List P4User) (latest_file : Option Nat)
    (changelists : List P4Change) (describe_ok : Bool) :
    Option Nat × List ReportEntry :=
  match changelists with
  | [] => (latest_file, [])
  | c :: cs =>
    if describe_ok then
      (some ((c :: cs).getLast (List.cons_ne_nil c cs)).time,
        (c :: cs).filterMap fun cl =>
          let unique_folders : Finset PyPath :=
            if cl.depotFile.isEmpty then ∅ else extract_unique_directories cl.depotFile
          if unique_folders = ∅ then none
          else
            some ⟨cl.change, cl.user,
              (match p4_users.find? fun u => u.User == cl.user with
               | some u => u.FullName
               | none => cl.user),
              cl.time, cl.desc, unique_folders⟩)
    else (latest_file, [])

theorem le_getLast_of_pairwise {α : Type} (f : α → Nat) :
    ∀ (l : List α) (h : l ≠ []), l.Pairwise (fun a b => f a ≤ f b) →
      ∀ c ∈ l, f c ≤ f (l.getLast h) := by
  intro l
  induction l with
  | nil => intro h; exact absurd rfl h
  | cons a l ih =>
    intro h hp c hc
    cases l with
    | nil =>
      have hc' := List.mem_singleton.mp hc
      subst hc'
      simp [List.getLast]
    | cons b l' =>
      have hgl : (a :: b :: l').getLast h =
          (b :: l').getLast (List.cons_ne_nil b l') :=
        List.getLast_cons (List.cons_ne_nil b l')
      rw [hgl]
      have hhead := (List.pairwise_cons.mp hp).1
      have htail := (List.pairwise_cons.mp hp).2
      rcases List.mem_cons.mp hc with rfl | hc'
      · exact hhead _ (List.getLast_mem (List.cons_ne_nil b l'))
      · exact ih (List.cons_ne_nil b l') htail c hc'

/-- C3: the persisted watermark never decreases across successful runs;
whenever a non-empty batch of change details is retrieved it is set to the
timestamp of the latest change event in the batch (the value written is a
change event's own timestamp, never the current clock instant), and it is
left unchanged when the listing is empty or the detail fetch fails.
Hypotheses: the backend lists the window's changes oldest-first (the `-r`
flag), and every change in the queried window lies at or after one second
past the previous watermark (the window start `@watermark+1s`). -/
theorem get_recent_changelists_watermark (p4_users : List P4User)
    (latest_file : Option Nat) (changelists : List P4Change) (describe_ok : Bool)
    (hsorted : changelists.Pairwise fun a b => a.time ≤ b.time)
    (hwindow : ∀ c ∈ changelists, ∀ w, latest_file = some w → w + 1 ≤ c.time) :
    (∀ w w', latest_file = some w →
      (get_recent_changelists p4_users latest_file changelists describe_ok).1 = some w' →
      w ≤ w') ∧
    (changelists ≠ [] → describe_ok = true →
      ∃ t, (get_recent_changelists p4_users latest_file changelists describe_ok).1
          = some t ∧
        (∃ c ∈ changelists, c.time = t) ∧ ∀ c ∈ changelists, c.time ≤ t) ∧
    ((changelists = [] ∨ describe_ok = false) →
      (get_recent_changelists p4_users latest_file changelists describe_ok).1
        = latest_file) := by
  cases changelists with
  | nil =>
    refine ⟨?_, ?_, ?_⟩
    · intro w w' hw hres
      simp only [get_recent_changelists] at hres
      rw [hw] at hres
      have := Option.some.inj hres
      omega
    · intro hne _
      exact absurd rfl hne
    · intro _
      simp [get_recent_changelists]
  | cons c cs =>
    cases describe_ok with
    | false =>
      refine ⟨?_, ?_, ?_⟩
      · intro w w' hw hres
        simp only [get_recent_changelists, Bool.false_eq_true, if_false] at hres
        rw [hw] at hres
        have := Option.some.inj hres
        omega
      · intro _ hok
        exact absurd hok (by simp)
      · intro _
        simp [get_recent_changelists]
    | true =>
      have hmem := List.getLast_mem (List.cons_ne_nil c cs)
      have hmax := le_getLast_of_pairwise P4Change.time (c :: cs)
        (List.cons_ne_nil c cs) hsorted
      refine ⟨?_, ?_, ?_⟩
      · intro w w' hw hres
        simp only [get_recent_changelists, if_true] at hres
        have hw' := Option.some.inj hres
        have hwin := hwindow _ hmem w hw
        omega
      · intro _ _
        refine ⟨((c :: cs).getLast (List.cons_ne_nil c cs)).time, ?_,
          ⟨_, hmem, rfl⟩, hmax⟩
        simp [get_recent_changelists]
      · rintro (hnil | hfalse)
        · exact absurd hnil (List.cons_ne_nil c cs)
        · exact absurd hfalse (by simp)

theorem get_recent_changelists_watermark_witness :
    ∃ t, (get_recent_changelists [] (some 10)
        [⟨1, "u", 12, "d", []⟩, ⟨2, "u", 15, "d", []⟩] true).1 = some t ∧
      (∃ c ∈ [(⟨1, "u", 12, "d", []⟩ : P4Change), ⟨2, "u", 15, "d", []⟩],
        c.time = t) ∧
      ∀ c ∈ [(⟨1, "u", 12, "d", []⟩ : P4Change), ⟨2, "u", 15, "d", []⟩],
        c.time ≤ t :=
  (get_recent_changelists_watermark [] (some 10)
      [⟨1, "u", 12, "d", []⟩, ⟨2, "u", 15, "d", []⟩] true
      (by simp [List.pairwise_cons])
      (by
        intro c hc w hw
        have hw' := Option.some.inj hw
        subst hw'
        rcases List.mem_cons.mp hc with rfl | hc'
        · decide
        · rcases List.mem_cons.mp hc' with rfl | hc''
          · decide
          · simp at hc'')).2.1 (by simp) rfl

/-- C8: when the change listing is non-empty but the batched detail fetch
raises `P4Exception`, `get_recent_changelists` returns an empty record
sequence and the watermark file is left unchanged, so the next run retries
the same interval. -/
theorem get_recent_changelists_describe_failure (p4_users : List P4User)
    (latest_file : Option Nat) (changelists : List P4Change)
    (hne : changelists ≠ []) :
    get_recent_changelists p4_users latest_file changelists false =
      (latest_file, []) := by
  cases changelists with
  | nil => exact absurd rfl hne
  | cons c cs => simp [get_recent_changelists]

theorem get_recent_changelists_describe_failure_witness :
    get_recent_changelists [] (some 10) [⟨1, "u", 12, "d", []⟩] false
      = (some 10, []) :=
  get_recent_changelists_describe_failure [] (some 10) [⟨1, "u", 12, "d", []⟩]
    (by simp)

/-- C5 (amended): the one-second exclusivity adjustment of
`get_previous_datetime` applies on *every* branch, because the
`+= timedelta(seconds=1)` sits after the if/else: with an explicit start
string the window start used in the change query is the parsed instant
**plus one second**, not exactly the parsed instant; from the persisted
watermark it is the watermark plus one second; and with neither it is
`now - 24h` plus one second. -/
theorem get_previous_datetime_adds_one_second :
    (∀ t latest_file now, get_previous_datetime (some t) latest_file now = t + 1) ∧
    (∀ w now, get_previous_datetime none (some w) now = w + 1) ∧
    (∀ now, get_previous_datetime none none now = (now - 86400) + 1) :=
  ⟨fun _ _ _ => rfl, fun _ _ => rfl, fun _ => rfl⟩

/-- C5 counterexample: with an explicit start parsed as instant 1000, the
window start handed to the change query is 1001, not the parsed instant. -/
theorem get_previous_datetime_explicit_not_exact :
    get_previous_datetime (some 1000) none 0 = 1001 ∧
    get_previous_datetime (some 1000) none 0 ≠ 1000 := by
  decide

end P4GPT
